import Mathlib

/-!
Verification of the evolutionary-computation TSP engine (`main.py`).

The development shallowly embeds the program's core: the haversine distance
(`hav_dist`), the distance-matrix builder (`distance_matrix`), the tour
fitness function (`evaluate`), the inversion-mutation operator
(`inversion_mutation`), and the generational loop of `run`.

Modelling conventions:
* Python floats are modelled as exact numbers: the geometric functions over
  `ℝ` (they use transcendental functions) and the GA fitness scalars over
  `ℚ` (the loop only adds and compares them).
* The single seeded pseudo-random stream (`random.seed(SEED)` at the top of
  `run`) is modelled by an explicit oracle `RS`: a stream of floats (values
  of successive `random.random()` calls) and a stream of naturals (draws
  made by `random.sample` / `random.choice`), each with a position counter.
  `run` takes the oracle seeded state as an argument; every stochastic
  operator consumes it in the program's call order.
* `random.sample(range(n), 2)` raises `ValueError` when `n < 2`; fallible
  steps therefore return `Except GAErr`.
* The DEAP library operators used by `run` (`tools.selTournament`,
  `tools.cxOrdered`, `HallOfFame`) are third-party code not contained in
  this repository; they are modelled from the specification's description
  of selection, ordered crossover and best-ever tracking.
-/

namespace TSP

/-- Sampling error raised by the model of `random.sample(range(n), k)`
when `k` exceeds `n` (Python's `ValueError`). -/
inductive GAErr where
  | sampleTooLarge
  deriving DecidableEq, Repr

/-- Oracle model of the seeded pseudo-random stream: `floats k` is the value
of the `k`-th `random.random()` call, `ints k` the `k`-th raw integer draw;
`fi` and `ii` are the respective stream positions. -/
structure RS where
  floats : ℕ → ℚ
  ints : ℕ → ℕ
  fi : ℕ
  ii : ℕ

/-- Model of `random.random()`: yield the next float of the stream. -/
def randFloat (s : RS) : ℚ × RS :=
  (s.floats s.fi, { s with fi := s.fi + 1 })

/-- Model of a uniform draw from `[0, n)` (used by `random.sample` and
`random.choice`): the next raw integer reduced mod `n`. -/
def randInt (s : RS) (n : ℕ) : ℕ × RS :=
  (s.ints s.ii % n, { s with ii := s.ii + 1 })

/-- Model of `random.sample(range n, 2)`: two distinct members of
`[0, n)`, or a `ValueError` when `n < 2`. -/
def sampleTwo (s : RS) (n : ℕ) : Except GAErr ((ℕ × ℕ) × RS) :=
  if n < 2 then
    .error .sampleTooLarge
  else
    let p := randInt s n
    let q := randInt p.2 (n - 1)
    let j := if p.1 ≤ q.1 then q.1 + 1 else q.1
    .ok ((p.1, j), q.2)

/-- Model of `random.sample(l, k)` on a duplicate-free list: draw `k`
elements without replacement, removing each drawn element. -/
def pickList : RS → List ℕ → ℕ → List ℕ × RS
  | s, _, 0 => ([], s)
  | s, l, k + 1 =>
    let p := randInt s l.length
    let x := l.getD p.1 0
    let q := pickList p.2 (l.erase x) k
    (x :: q.1, q.2)

/-- A DEAP `creator.Individual`: a list of city indices together with the
cached fitness; `none` models an invalid (deleted) fitness. -/
structure Individual where
  tour : List ℕ
  fit : Option ℚ
  deriving DecidableEq

instance : Inhabited Individual := ⟨⟨[], none⟩⟩

/-- Fitness value of an individual, `individual.fitness.values[0]`
(only ever read when the fitness is valid). -/
def Individual.val (ind : Individual) : ℚ :=
  ind.fit.getD 0

/-- Global GA value `POP` of `main.py`. -/
def POP : ℕ := 300

/-- Global GA value `GEN` of `main.py`. -/
def GEN : ℕ := 1000

/-- Global GA value `CXR` of `main.py`. -/
def CXR : ℚ := mkRat 85 100

/-- Global GA value `MUT` of `main.py`. -/
def MUT : ℚ := mkRat 2 10

/-- Global GA value `TRN` of `main.py`. -/
def TRN : ℕ := 3

/-- Inner inversion probability registered by
`toolbox.register("mutate", inversion_mutation, indpb=0.825)`. -/
def indpb : ℚ := mkRat 825 1000

/-- The fitness closure `evaluate` of `run`: sums
`distance[individual[i], individual[(i+1) % n_cities]]` for
`i` in `range(n_cities)`. -/
def evaluate (distance : ℕ → ℕ → ℚ) (n_cities : ℕ) (individual : List ℕ) : ℚ :=
  (List.range n_cities).foldl
    (fun total i =>
      total + distance (individual.getD i 0) (individual.getD ((i + 1) % n_cities) 0))
    0

/-- The operator `inversion_mutation` of `main.py`: with probability
`indpb`, pick two distinct positions by `random.sample(range(size), 2)`,
sort them as `a < b`, and reverse the slice `individual[a:b]` in place. -/
def inversion_mutation (p : ℚ) (s : RS) (ind : Individual) :
    Except GAErr (Individual × RS) :=
  let r := randFloat s
  if r.1 < p then
    match sampleTwo r.2 ind.tour.length with
    | .error e => .error e
    | .ok ((i, j), s2) =>
      let a := min i j
      let b := max i j
      .ok (⟨ind.tour.take a ++ ((ind.tour.drop a).take (b - a)).reverse
              ++ ind.tour.drop b, ind.fit⟩, s2)
  else
    .ok (ind, r.2)

/-- Modelled from the spec: DEAP `tools.selRandom`, library code not in the
repository — draw `t` aspirants independently and uniformly (with
replacement) from the population. -/
def drawAspirants (pop : List Individual) : RS → ℕ → List Individual × RS
  | s, 0 => ([], s)
  | s, t + 1 =>
    let p := randInt s pop.length
    let q := drawAspirants pop p.2 t
    (pop.getD p.1 default :: q.1, q.2)

/-- Pick the aspirant with the lowest fitness; the first one found wins
ties (Python's `max` over `FitnessMin` keys keeps the earliest maximum). -/
def bestOf (l : List Individual) : Individual :=
  l.foldl (fun b x => if x.val < b.val then x else b) (l.headD default)

/-- Modelled from the spec: DEAP `tools.selTournament`, library code not in
the repository — repeat `k` times: draw `t` aspirants and keep the one with
the lowest fitness. -/
def selTournament (pop : List Individual) (t : ℕ) : RS → ℕ → List Individual × RS
  | s, 0 => ([], s)
  | s, k + 1 =>
    let p := drawAspirants pop s t
    let q := selTournament pop t p.2 k
    (bestOf p.1 :: q.1, q.2)

/-- Modelled from the spec: one child of DEAP `tools.cxOrdered`, library
code not in the repository — the child keeps `p1`'s segment at cut
positions `[a, b)`; the remaining positions, in cyclic order starting at
`b`, are filled by scanning `p2` cyclically from position `b` and keeping
the cities not already present in the copied segment. -/
def oxChild (p1 p2 : List ℕ) (a b : ℕ) : List ℕ :=
  let seg := (p1.drop a).take (b - a)
  let filler := (p2.rotate b).filter (fun v => decide (v ∉ seg))
  let tailLen := p1.length - b
  filler.drop tailLen ++ seg ++ filler.take tailLen

/-- The crossover phase of `run`'s evolution loop: adjacent offspring pairs
mate with probability `CXR`; mating draws the two cut points by
`random.sample(range(size), 2)` (sorted) and invalidates both children's
fitness. -/
def crossoverPhase : RS → List Individual → Except GAErr (List Individual × RS)
  | s, [] => .ok ([], s)
  | s, [x] => .ok ([x], s)
  | s, x :: y :: rest =>
    let r := randFloat s
    if r.1 < CXR then
      match sampleTwo r.2 x.tour.length with
      | .error e => .error e
      | .ok ((i, j), s2) =>
        let a := min i j
        let b := max i j
        let c1 : Individual := ⟨oxChild x.tour y.tour a b, none⟩
        let c2 : Individual := ⟨oxChild y.tour x.tour a b, none⟩
        match crossoverPhase s2 rest with
        | .error e => .error e
        | .ok (rest', s3) => .ok (c1 :: c2 :: rest', s3)
    else
      match crossoverPhase r.2 rest with
      | .error e => .error e
      | .ok (rest', s2) => .ok (x :: y :: rest', s2)

/-- The per-individual mutation step of `run`'s evolution loop: an outer
Bernoulli gate with probability `MUT`, then `inversion_mutation` (whose
inner gate has probability `indpb`); whenever the outer gate fires the
individual's fitness is deleted afterwards. -/
def mutateOne (s : RS) (ind : Individual) : Except GAErr (Individual × RS) :=
  let r := randFloat s
  if r.1 < MUT then
    match inversion_mutation indpb r.2 ind with
    | .error e => .error e
    | .ok (ind', s2) => .ok (⟨ind'.tour, none⟩, s2)
  else
    .ok (ind, r.2)

/-- The mutation phase of `run`'s evolution loop, applied to every
offspring in order. -/
def mutationPhase : RS → List Individual → Except GAErr (List Individual × RS)
  | s, [] => .ok ([], s)
  | s, ind :: rest =>
    match mutateOne s ind with
    | .error e => .error e
    | .ok (ind', s1) =>
      match mutationPhase s1 rest with
      | .error e => .error e
      | .ok (rest', s2) => .ok (ind' :: rest', s2)

/-- The evaluation phase of `run`'s evolution loop: recompute the fitness
of exactly the offspring whose fitness is invalid. -/
def evalPhase (d : ℕ → ℕ → ℚ) (n : ℕ) (off : List Individual) : List Individual :=
  off.map fun ind =>
    if ind.fit.isSome then ind else ⟨ind.tour, some (evaluate d n ind.tour)⟩

/-- Modelled from the spec: DEAP `HallOfFame.update` with size one, library
code not in the repository — keep the individual with minimal fitness,
ties keeping the incumbent. -/
def updateBest (best : Individual) (pop : List Individual) : Individual :=
  pop.foldl (fun b x => if x.val < b.val then x else b) best

/-- State of the generational loop: current population, best-ever
individual (the hall of fame), trace `best_per_gen`, and the random
stream. -/
structure GAState where
  pop : List Individual
  best : Individual
  trace : List ℚ
  rs : RS

/-- One generation of `run`'s evolution loop: tournament selection (count =
population size), cloning, crossover, mutation, evaluation of invalid
offspring, unconditional overwrite of offspring slot 0 with the best-ever
individual, population replacement, best-ever update and trace append. -/
def genStep (d : ℕ → ℕ → ℚ) (n : ℕ) (st : GAState) : Except GAErr GAState :=
  let sel := selTournament st.pop TRN st.rs st.pop.length
  match crossoverPhase sel.2 sel.1 with
  | .error e => .error e
  | .ok co =>
    match mutationPhase co.2 co.1 with
    | .error e => .error e
    | .ok mu =>
      let off := (evalPhase d n mu.1).set 0 st.best
      let best2 := updateBest st.best off
      .ok ⟨off, best2, st.trace ++ [best2.val], mu.2⟩

/-- Iterate `genStep` a given number of generations, propagating a raised
error as Python propagates an uncaught exception. -/
def evolveLoopK (d : ℕ → ℕ → ℚ) (n : ℕ) : ℕ → GAState → Except GAErr GAState
  | 0, st => .ok st
  | g + 1, st =>
    match genStep d n st with
    | .error e => .error e
    | .ok st' => evolveLoopK d n g st'

/-- The initial population of `run` with population size `k`: each
individual is an independent `random.sample(range(n_cities), n_cities)`
with no fitness yet. -/
def initPopulation (n : ℕ) : RS → ℕ → List Individual × RS
  | s, 0 => ([], s)
  | s, k + 1 =>
    let p := pickList s (List.range n) n
    let q := initPopulation n p.2 k
    (⟨p.1, none⟩ :: q.1, q.2)

/-- The state of `run` just before the evolution loop, with population size
`k`: build the initial population, evaluate every individual, and seed the
hall of fame (DEAP inserts `population[0]` first, then keeps the minimum).
-/
def initStateK (d : ℕ → ℕ → ℚ) (n k : ℕ) (s : RS) : GAState :=
  let p := initPopulation n s k
  let pop := p.1.map fun ind => ⟨ind.tour, some (evaluate d n ind.tour)⟩
  ⟨pop, updateBest (pop.headD default) pop, [], p.2⟩

/-- The genetic algorithm `run(distance, n_cities)` of `main.py`. Its
random-stream argument models the generator state right after
`random.seed(SEED)`; the configuration values `POP`, `GEN`, `CXR`, `MUT`,
`TRN` and `indpb` are the module's fixed globals. Returns the best tour,
its distance and `best_per_gen`. -/
def run (d : ℕ → ℕ → ℚ) (n_cities : ℕ) (s : RS) :
    Except GAErr (List ℕ × ℚ × List ℚ) :=
  match evolveLoopK d n_cities GEN (initStateK d n_cities POP s) with
  | .error e => .error e
  | .ok st => .ok (st.best.tour, st.best.val, st.trace)

/-- Python's `math.radians`: degrees to radians. -/
noncomputable def radians (x : ℝ) : ℝ := x * (Real.pi / 180)

/-- The haversine distance calculator `hav_dist` of `main.py`, over exact
reals. -/
noncomputable def hav_dist (lat1 lon1 lat2 lon2 : ℝ) : ℝ :=
  let rlat1 := radians lat1
  let rlon1 := radians lon1
  let rlat2 := radians lat2
  let rlon2 := radians lon2
  let dlat := rlat2 - rlat1
  let dlon := rlon2 - rlon1
  let a := Real.sin (dlat / 2) ^ 2
    + Real.cos rlat1 * Real.cos rlat2 * Real.sin (dlon / 2) ^ 2
  2 * 3958.8 * Real.arcsin (Real.sqrt a)

/-- The intermediate value `a` computed inside `hav_dist` (the argument
handed to `math.sqrt`). -/
noncomputable def hav_a (lat1 lon1 lat2 lon2 : ℝ) : ℝ :=
  Real.sin ((radians lat2 - radians lat1) / 2) ^ 2
    + Real.cos (radians lat1) * Real.cos (radians lat2)
      * Real.sin ((radians lon2 - radians lon1) / 2) ^ 2

/-- A single `matrix[i, j] = v` store into the (function-modelled) numpy
matrix of `distance_matrix`. -/
noncomputable def matUpd (m : ℕ → ℕ → ℝ) (i j : ℕ) (v : ℝ) : ℕ → ℕ → ℝ :=
  fun a b => if a = i ∧ b = j then v else m a b

/-- The entries of the `n × n` numpy matrix built by `distance_matrix` of
`main.py`: start from `np.zeros((n, n))` and, for every `i < n` and every
`j` in `range(i+1, n)`, store the haversine distance of coordinates `i` and
`j` at both `[i, j]` and `[j, i]`. -/
noncomputable def distance_matrix (coords : List (ℝ × ℝ)) : ℕ → ℕ → ℝ :=
  let n := coords.length
  (List.range n).foldl
    (fun m i =>
      (List.range' (i + 1) (n - (i + 1))).foldl
        (fun m' j =>
          let ci := coords.getD i (0, 0)
          let cj := coords.getD j (0, 0)
          let dist := hav_dist ci.1 ci.2 cj.1 cj.2
          matUpd (matUpd m' i j dist) j i dist)
        m)
    (fun _ _ => 0)

/-- The shape of the numpy matrix returned by `distance_matrix`: it is
`n × n` for `n = len(coords)`, so it holds `n * n` entries. -/
def distance_matrix_entries (coords : List (ℝ × ℝ)) : ℕ :=
  coords.length * coords.length

lemma foldl_add_range (f : ℕ → ℚ) :
    ∀ n, (List.range n).foldl (fun t i => t + f i) 0 = ∑ i ∈ Finset.range n, f i := by
  intro n
  induction n with
  | zero => simp
  | succ n ih =>
    rw [List.range_succ, List.foldl_append, Finset.sum_range_succ, ih]
    simp

/-- C4. The fitness returned by `evaluate` is the sum over `i ∈ [0, n)` of
`distanceMatrix[individual[i]][individual[(i+1) mod n]]`; moreover for
`n ≥ 1` this sum is the open path length plus the closing edge from the
last city back to the first. -/
theorem evaluate_cyclic_sum :
    (∀ (distance : ℕ → ℕ → ℚ) (n : ℕ) (individual : List ℕ),
      evaluate distance n individual =
        ∑ i ∈ Finset.range n,
          distance (individual.getD i 0) (individual.getD ((i + 1) % n) 0)) ∧
    (∀ (distance : ℕ → ℕ → ℚ) (n : ℕ) (individual : List ℕ), 1 ≤ n →
      evaluate distance n individual =
        (∑ i ∈ Finset.range (n - 1),
          distance (individual.getD i 0) (individual.getD (i + 1) 0)) +
        distance (individual.getD (n - 1) 0) (individual.getD 0 0)) := by
  constructor
  · intro distance n individual
    exact foldl_add_range _ n
  · intro distance n individual hn
    have h1 : evaluate distance n individual =
        ∑ i ∈ Finset.range n,
          distance (individual.getD i 0) (individual.getD ((i + 1) % n) 0) :=
      foldl_add_range _ n
    rw [h1]
    obtain ⟨m, rfl⟩ : ∃ m, n = m + 1 := ⟨n - 1, (Nat.succ_pred_eq_of_pos hn).symm⟩
    rw [Finset.sum_range_succ]
    simp only [Nat.mod_self, Nat.add_sub_cancel]
    congr 1
    refine Finset.sum_congr rfl fun i hi => ?_
    have hi' : i + 1 < m + 1 := by
      have := Finset.mem_range.mp hi
      omega
    rw [Nat.mod_eq_of_lt hi']

/-- Witness for the hypothesised half of `evaluate_cyclic_sum` at a
concrete instance. -/
theorem evaluate_cyclic_sum_witness :
    evaluate (fun i j => (i : ℚ) + 2 * j) 3 [2, 0, 1] =
      (∑ i ∈ Finset.range 2,
        ((fun i j => (i : ℚ) + 2 * j) ([2, 0, 1].getD i 0) ([2, 0, 1].getD (i + 1) 0))) +
      (fun i j => (i : ℚ) + 2 * j) ([2, 0, 1].getD 2 0) ([2, 0, 1].getD 0 0) :=
  evaluate_cyclic_sum.2 (fun i j => (i : ℚ) + 2 * j) 3 [2, 0, 1] (by decide)

/-- C5. `hav_dist` computes the haversine great-circle distance with Earth
radius 3958.8: both points are converted to radians, the intermediate is
`a = sin²(Δlat/2) + cos(lat1)·cos(lat2)·sin²(Δlon/2)`, and the result is
`2·3958.8·asin(√a)`. -/
theorem hav_dist_formula (lat1 lon1 lat2 lon2 : ℝ) :
    hav_dist lat1 lon1 lat2 lon2 =
      2 * 3958.8 * Real.arcsin (Real.sqrt
        (Real.sin ((radians lat2 - radians lat1) / 2) ^ 2
          + Real.cos (radians lat1) * Real.cos (radians lat2)
            * Real.sin ((radians lon2 - radians lon1) / 2) ^ 2)) := rfl

lemma hav_a_def (lat1 lon1 lat2 lon2 : ℝ) :
    hav_dist lat1 lon1 lat2 lon2 =
      2 * 3958.8 * Real.arcsin (Real.sqrt (hav_a lat1 lon1 lat2 lon2)) := rfl

lemma sin_cos_mix_bounds (M A y : ℝ) :
    0 ≤ Real.sin A ^ 2 + Real.cos (M - A) * Real.cos (M + A) * Real.sin y ^ 2 ∧
      Real.sin A ^ 2 + Real.cos (M - A) * Real.cos (M + A) * Real.sin y ^ 2 ≤ 1 := by
  have hM := Real.sin_sq_add_cos_sq M
  have hA := Real.sin_sq_add_cos_sq A
  have hy := Real.sin_sq_add_cos_sq y
  rw [Real.cos_sub, Real.cos_add]
  have key : Real.sin A ^ 2
      + (Real.cos M * Real.cos A + Real.sin M * Real.sin A)
        * (Real.cos M * Real.cos A - Real.sin M * Real.sin A) * Real.sin y ^ 2
      = (Real.sin A * Real.cos y) ^ 2 + (Real.cos M * Real.sin y) ^ 2 := by
    linear_combination (Real.sin y ^ 2 * Real.cos M ^ 2) * hA
      - (Real.sin y ^ 2 * Real.sin A ^ 2) * hM - Real.sin A ^ 2 * hy
  rw [key]
  constructor
  · positivity
  · have h1 : Real.sin A ^ 2 ≤ 1 := by nlinarith [sq_nonneg (Real.cos A)]
    have h2 : Real.cos M ^ 2 ≤ 1 := by nlinarith [sq_nonneg (Real.sin M)]
    nlinarith [sq_nonneg (Real.cos y), sq_nonneg (Real.sin y)]

lemma hav_a_bounds (lat1 lon1 lat2 lon2 : ℝ) :
    0 ≤ hav_a lat1 lon1 lat2 lon2 ∧ hav_a lat1 lon1 lat2 lon2 ≤ 1 := by
  have key := sin_cos_mix_bounds ((radians lat1 + radians lat2) / 2)
    ((radians lat2 - radians lat1) / 2) ((radians lon2 - radians lon1) / 2)
  have e1 : (radians lat1 + radians lat2) / 2 - (radians lat2 - radians lat1) / 2
      = radians lat1 := by ring
  have e2 : (radians lat1 + radians lat2) / 2 + (radians lat2 - radians lat1) / 2
      = radians lat2 := by ring
  rw [e1, e2] at key
  exact key

lemma cos_prod_neg_at_180 :
    Real.cos (radians 180) * Real.cos (radians 0) < 0 := by
  have h180 : radians 180 = Real.pi := by
    unfold radians
    ring
  have h0 : radians 0 = 0 := by
    unfold radians
    ring
  rw [h180, h0, Real.cos_pi, Real.cos_zero]
  norm_num

/-- C10 counterexample. At the concrete input lat1 = 180 (outside
`[-90, 90]`), lon1 = lat2 = lon2 = 0, the product `cos(lat1)·cos(lat2)` is
negative — exactly the situation in which the claim asserts the sqrt
argument `a` can become negative — and yet `a` is non-negative there;
`hav_dist_total_nonneg` extends this to every input, negating the claimed
existence of inputs with `a` negative. -/
theorem hav_a_nonneg_cx :
    0 ≤ hav_a 180 0 0 0 ∧ Real.cos (radians 180) * Real.cos (radians 0) < 0 :=
  ⟨(hav_a_bounds 180 0 0 0).1, cos_prod_neg_at_180⟩

/-- C10 amended. For every pair of points — with no latitude-range
precondition — the haversine intermediate `a` lies in `[0, 1]` over exact
reals, so `sqrt` and `asin` are applied within their domains and the
returned distance is non-negative; latitudes outside `[-90, 90]` can make
`cos(lat1)·cos(lat2)` negative (e.g. 180 and 0), but `a` stays in `[0, 1]`.
-/
theorem hav_dist_total_nonneg :
    (∀ lat1 lon1 lat2 lon2 : ℝ,
      0 ≤ hav_a lat1 lon1 lat2 lon2 ∧ hav_a lat1 lon1 lat2 lon2 ≤ 1 ∧
        0 ≤ hav_dist lat1 lon1 lat2 lon2) ∧
    Real.cos (radians 180) * Real.cos (radians 0) < 0 := by
  constructor
  · intro lat1 lon1 lat2 lon2
    obtain ⟨h0, h1⟩ := hav_a_bounds lat1 lon1 lat2 lon2
    refine ⟨h0, h1, ?_⟩
    rw [hav_a_def]
    have harc : 0 ≤ Real.arcsin (Real.sqrt (hav_a lat1 lon1 lat2 lon2)) :=
      Real.arcsin_nonneg.mpr (Real.sqrt_nonneg _)
    have : (0 : ℝ) ≤ 2 * 3958.8 := by norm_num
    exact mul_nonneg this harc
  · exact cos_prod_neg_at_180

lemma matUpd_pair (m : ℕ → ℕ → ℝ) (i j : ℕ) (v : ℝ) (hne : i ≠ j)
    (hsym : ∀ a b, m a b = m b a) (hdiag : ∀ a, m a a = 0) :
    (∀ a b, matUpd (matUpd m i j v) j i v a b = matUpd (matUpd m i j v) j i v b a)
      ∧ ∀ a, matUpd (matUpd m i j v) j i v a a = 0 := by
  constructor
  · intro a b
    unfold matUpd
    split_ifs <;> first | rfl | exact hsym a b | omega
  · intro a
    unfold matUpd
    split_ifs <;> first | exact hdiag a | omega

lemma dm_symDiag (coords : List (ℝ × ℝ)) :
    (∀ a b, distance_matrix coords a b = distance_matrix coords b a)
      ∧ ∀ a, distance_matrix coords a a = 0 := by
  unfold distance_matrix
  refine List.foldlRecOn
    (motive := fun (m : ℕ → ℕ → ℝ) => (∀ a b, m a b = m b a) ∧ ∀ a, m a a = 0)
    _ _ _ ⟨fun a b => rfl, fun a => rfl⟩ ?_
  intro m hm i _
  refine List.foldlRecOn
    (motive := fun (m : ℕ → ℕ → ℝ) => (∀ a b, m a b = m b a) ∧ ∀ a, m a a = 0)
    _ _ _ hm ?_
  intro m' hm' j hj
  have hij : i < j := by
    obtain ⟨k, _, hk⟩ := List.mem_range'.mp hj
    omega
  exact matUpd_pair m' i j _ (Nat.ne_of_lt hij) hm'.1 hm'.2

/-- C6 counterexample. The degenerate conjunct of the claim fails at the
concrete input `coords = []`: there `n = 0 ≤ 1`, yet the matrix returned by
`distance_matrix` is the empty `0 × 0` array holding strictly fewer than
one entry, not a single zero entry. -/
theorem distance_matrix_degenerate_cx :
    ([] : List (ℝ × ℝ)).length ≤ 1 ∧
      distance_matrix_entries ([] : List (ℝ × ℝ)) < 1 := by
  constructor
  · decide
  · simp [distance_matrix_entries]

/-- C6 amended. The matrix returned by `distance_matrix` is symmetric with
zero diagonal; for `n = 1` it is a single zero entry with no pair computed,
and for `n = 0` it is the empty matrix with no entry at all. -/
theorem distance_matrix_spec (coords : List (ℝ × ℝ)) :
    (∀ i j, distance_matrix coords i j = distance_matrix coords j i) ∧
    (∀ i, distance_matrix coords i i = 0) ∧
    (coords.length = 1 →
      distance_matrix_entries coords = 1 ∧ distance_matrix coords 0 0 = 0) ∧
    (coords.length = 0 → distance_matrix_entries coords = 0) := by
  obtain ⟨hsym, hdiag⟩ := dm_symDiag coords
  refine ⟨hsym, hdiag, fun h1 => ⟨?_, hdiag 0⟩, fun h0 => ?_⟩
  · simp [distance_matrix_entries, h1]
  · simp [distance_matrix_entries, h0]

/-- Witness for the hypothesised conjuncts of `distance_matrix_spec` at the
concrete one-point coordinate list. -/
theorem distance_matrix_spec_witness :
    distance_matrix_entries [((0 : ℝ), (0 : ℝ))] = 1 ∧
      distance_matrix [((0 : ℝ), (0 : ℝ))] 0 0 = 0 :=
  (distance_matrix_spec [((0 : ℝ), (0 : ℝ))]).2.2.1 rfl

lemma pickList_perm : ∀ (k : ℕ) (l : List ℕ) (s : RS), l.length = k →
    ((pickList s l k).1).Perm l := by
  intro k
  induction k with
  | zero =>
    intro l s hl
    rw [List.length_eq_zero] at hl
    subst hl
    simp [pickList]
  | succ k ih =>
    intro l s hl
    have hpos : 0 < l.length := by omega
    have hlt : s.ints s.ii % l.length < l.length := Nat.mod_lt _ hpos
    have hx : l.getD (s.ints s.ii % l.length) 0 = l[s.ints s.ii % l.length] :=
      List.getD_eq_getElem l 0 hlt
    have hmem : l.getD (s.ints s.ii % l.length) 0 ∈ l := by
      rw [hx]
      exact List.getElem_mem hlt
    have herase : (l.erase (l.getD (s.ints s.ii % l.length) 0)).length = k := by
      rw [List.length_erase_of_mem hmem]
      omega
    have hrec := ih (l.erase (l.getD (s.ints s.ii % l.length) 0))
      { s with ii := s.ii + 1 } herase
    simp only [pickList, randInt]
    exact (hrec.cons _).trans (List.perm_cons_erase hmem).symm

lemma initPopulation_tours (n : ℕ) : ∀ (k : ℕ) (s : RS),
    ∀ ind ∈ (initPopulation n s k).1, ind.tour.Perm (List.range n) := by
  intro k
  induction k with
  | zero =>
    intro s ind h
    simp [initPopulation] at h
  | succ k ih =>
    intro s ind h
    simp only [initPopulation] at h
    rcases List.mem_cons.mp h with h1 | h2
    · subst h1
      exact pickList_perm n (List.range n) s (List.length_range n)
    · exact ih _ ind h2

lemma foldl_best_mem : ∀ (l : List Individual) (b : Individual),
    l.foldl (fun b x => if x.val < b.val then x else b) b = b ∨
      l.foldl (fun b x => if x.val < b.val then x else b) b ∈ l := by
  intro l
  induction l with
  | nil =>
    intro b
    left
    rfl
  | cons x xs ih =>
    intro b
    rw [List.foldl_cons]
    rcases ih (if x.val < b.val then x else b) with h | h
    · rw [h]
      by_cases hc : x.val < b.val
      · right
        rw [if_pos hc]
        exact List.mem_cons_self x xs
      · left
        rw [if_neg hc]
    · right
      exact List.mem_cons_of_mem _ h

lemma foldl_best_le : ∀ (l : List Individual) (b : Individual),
    (l.foldl (fun b x => if x.val < b.val then x else b) b).val ≤ b.val := by
  intro l
  induction l with
  | nil =>
    intro b
    exact le_refl _
  | cons x xs ih =>
    intro b
    rw [List.foldl_cons]
    refine le_trans (ih _) ?_
    by_cases hc : x.val < b.val
    · rw [if_pos hc]
      exact le_of_lt hc
    · rw [if_neg hc]

lemma bestOf_mem (l : List Individual) (h : l ≠ []) : bestOf l ∈ l := by
  cases l with
  | nil => exact absurd rfl h
  | cons x xs =>
    unfold bestOf
    rcases foldl_best_mem (x :: xs) ((x :: xs).headD default) with h1 | h1
    · rw [h1]
      exact List.mem_cons_self x xs
    · exact h1

lemma updateBest_mem (best : Individual) (pop : List Individual) :
    updateBest best pop = best ∨ updateBest best pop ∈ pop :=
  foldl_best_mem pop best

lemma updateBest_le (best : Individual) (pop : List Individual) :
    (updateBest best pop).val ≤ best.val :=
  foldl_best_le pop best

lemma drawAspirants_mem (pop : List Individual) (hpop : pop ≠ []) :
    ∀ (t : ℕ) (s : RS), ∀ x ∈ (drawAspirants pop s t).1, x ∈ pop := by
  intro t
  induction t with
  | zero =>
    intro s x hx
    simp [drawAspirants] at hx
  | succ t ih =>
    intro s x hx
    simp only [drawAspirants, randInt] at hx
    rcases List.mem_cons.mp hx with h1 | h2
    · subst h1
      have hpos : 0 < pop.length := List.length_pos.mpr hpop
      have hlt : s.ints s.ii % pop.length < pop.length := Nat.mod_lt _ hpos
      rw [List.getD_eq_getElem pop default hlt]
      exact List.getElem_mem hlt
    · exact ih _ x h2

lemma drawAspirants_length (pop : List Individual) :
    ∀ (t : ℕ) (s : RS), (drawAspirants pop s t).1.length = t := by
  intro t
  induction t with
  | zero =>
    intro s
    rfl
  | succ t ih =>
    intro s
    simp only [drawAspirants, List.length_cons, ih]

lemma selTournament_mem (pop : List Individual) (hpop : pop ≠ []) (t : ℕ)
    (ht : 1 ≤ t) : ∀ (k : ℕ) (s : RS),
    ∀ x ∈ (selTournament pop t s k).1, x ∈ pop := by
  intro k
  induction k with
  | zero =>
    intro s x hx
    simp [selTournament] at hx
  | succ k ih =>
    intro s x hx
    simp only [selTournament] at hx
    rcases List.mem_cons.mp hx with h1 | h2
    · subst h1
      have hne : (drawAspirants pop s t).1 ≠ [] := by
        have := drawAspirants_length pop t s
        intro hcon
        rw [hcon] at this
        simp at this
        omega
      exact drawAspirants_mem pop hpop t s _ (bestOf_mem _ hne)
    · exact ih _ x h2

lemma perm_append_filter (s l : List ℕ) (hs : s.Nodup) (hl : l.Nodup)
    (hsub : ∀ x ∈ s, x ∈ l) :
    (s ++ l.filter (fun v => decide (v ∉ s))).Perm l := by
  have hnd : (s ++ l.filter (fun v => decide (v ∉ s))).Nodup := by
    refine List.Nodup.append hs (hl.filter _) ?_
    intro x hxs hxf
    have hx := List.of_mem_filter hxf
    simp only [decide_eq_true_eq] at hx
    exact hx hxs
  refine (List.perm_ext_iff_of_nodup hnd hl).mpr ?_
  intro a
  constructor
  · intro ha
    rcases List.mem_append.mp ha with h | h
    · exact hsub a h
    · exact List.mem_of_mem_filter h
  · intro ha
    by_cases has : a ∈ s
    · exact List.mem_append.mpr (Or.inl has)
    · refine List.mem_append.mpr (Or.inr ?_)
      refine List.mem_filter.mpr ⟨ha, ?_⟩
      simpa using has

lemma oxChild_perm (n : ℕ) (p1 p2 : List ℕ) (a b : ℕ)
    (h1 : p1.Perm (List.range n)) (h2 : p2.Perm (List.range n)) :
    (oxChild p1 p2 a b).Perm (List.range n) := by
  simp only [oxChild]
  have hnd1 : p1.Nodup := h1.nodup_iff.mpr (List.nodup_range n)
  have hsl : ((p1.drop a).take (b - a)).Sublist p1 :=
    (List.take_sublist _ _).trans (List.drop_sublist _ _)
  have hndseg : ((p1.drop a).take (b - a)).Nodup := hsl.nodup hnd1
  have hndscan : (p2.rotate b).Nodup :=
    (List.rotate_perm p2 b).nodup_iff.mpr (h2.nodup_iff.mpr (List.nodup_range n))
  have hsub : ∀ x ∈ (p1.drop a).take (b - a), x ∈ p2.rotate b := by
    intro x hx
    have hxp1 : x ∈ p1 := hsl.subset hx
    have hxr : x ∈ List.range n := h1.mem_iff.mp hxp1
    have hxp2 : x ∈ p2 := h2.mem_iff.mpr hxr
    exact (List.rotate_perm p2 b).mem_iff.mpr hxp2
  have key : (((p1.drop a).take (b - a)) ++
      (p2.rotate b).filter (fun v => decide (v ∉ (p1.drop a).take (b - a)))).Perm
      (List.range n) :=
    (perm_append_filter _ _ hndseg hndscan hsub).trans
      ((List.rotate_perm p2 b).trans h2)
  set seg := (p1.drop a).take (b - a)
  set filler := (p2.rotate b).filter (fun v => decide (v ∉ seg))
  set t := p1.length - b
  have step1 : filler.drop t ++ seg ++ filler.take t
      = filler.drop t ++ (seg ++ filler.take t) := by
    rw [List.append_assoc]
  have step2 : (filler.drop t ++ (seg ++ filler.take t)).Perm
      (seg ++ (filler.take t ++ filler.drop t)) := by
    refine List.perm_append_comm.trans ?_
    rw [List.append_assoc]
  rw [step1]
  refine step2.trans ?_
  rw [List.take_append_drop]
  exact key

lemma slice_reverse_perm (l : List ℕ) (a b : ℕ) (hab : a ≤ b) :
    (l.take a ++ ((l.drop a).take (b - a)).reverse ++ l.drop b).Perm l := by
  have hdd : (l.drop a).drop (b - a) = l.drop b := by
    rw [List.drop_drop]
    congr 1
    omega
  rw [List.append_assoc]
  have hmid : (((l.drop a).take (b - a)).reverse ++ l.drop b).Perm
      ((l.drop a).take (b - a) ++ l.drop b) :=
    (List.reverse_perm _).append_right _
  have e : l.take a ++ ((l.drop a).take (b - a) ++ l.drop b) = l := by
    rw [← hdd, List.take_append_drop, List.take_append_drop]
  refine (hmid.append_left _).trans ?_
  rw [e]

lemma inversion_mutation_perm {n : ℕ} {p : ℚ} {s s' : RS}
    {ind ind' : Individual} (hperm : ind.tour.Perm (List.range n))
    (heq : inversion_mutation p s ind = .ok (ind', s')) :
    ind'.tour.Perm (List.range n) := by
  unfold inversion_mutation at heq
  by_cases hg : (randFloat s).1 < p
  · rw [if_pos hg] at heq
    cases h2 : sampleTwo (randFloat s).2 ind.tour.length with
    | error e =>
      rw [h2] at heq
      exact absurd heq (by simp)
    | ok v =>
      obtain ⟨⟨i, j⟩, s2⟩ := v
      rw [h2] at heq
      have hind : ind' = ⟨ind.tour.take (min i j) ++
          ((ind.tour.drop (min i j)).take (max i j - min i j)).reverse
          ++ ind.tour.drop (max i j), ind.fit⟩ := by
        cases heq
        rfl
      subst hind
      exact (slice_reverse_perm ind.tour (min i j) (max i j)
        (min_le_max)).trans hperm
  · rw [if_neg hg] at heq
    cases heq
    exact hperm

lemma crossoverPhase_perm (n : ℕ) :
    ∀ (s : RS) (l : List Individual),
    (∀ x ∈ l, x.tour.Perm (List.range n)) →
    ∀ (out : List Individual) (s' : RS), crossoverPhase s l = .ok (out, s') →
    ∀ x ∈ out, x.tour.Perm (List.range n) := by
  intro s l
  induction s, l using crossoverPhase.induct with
  | case1 s =>
    intro hin out s' heq x hx
    simp only [crossoverPhase] at heq
    cases heq
    simp at hx
  | case2 s y =>
    intro hin out s' heq x hx
    simp only [crossoverPhase] at heq
    cases heq
    rcases List.mem_singleton.mp hx with rfl
    exact hin x (List.mem_singleton_self x)
  | case3 s x y rest r hgate e hserr =>
    intro hin out s' heq x' hx'
    have hgate' : (randFloat s).1 < CXR := hgate
    have hserr' : sampleTwo (randFloat s).2 x.tour.length = .error e := hserr
    simp only [crossoverPhase] at heq
    rw [if_pos hgate', hserr'] at heq
    cases heq
  | case4 s x y rest r hgate i j s2 hsok e hrec ih =>
    intro hin out s' heq x' hx'
    have hgate' : (randFloat s).1 < CXR := hgate
    have hsok' : sampleTwo (randFloat s).2 x.tour.length = .ok ((i, j), s2) := hsok
    simp only [crossoverPhase, if_pos hgate', hsok', hrec] at heq
    cases heq
  | case5 s x y rest r hgate i j s2 hsok rest' s3 hrec ih =>
    intro hin out s' heq x' hx'
    have hgate' : (randFloat s).1 < CXR := hgate
    have hsok' : sampleTwo (randFloat s).2 x.tour.length = .ok ((i, j), s2) := hsok
    simp only [crossoverPhase, if_pos hgate', hsok', hrec] at heq
    obtain ⟨rfl, rfl⟩ := Prod.mk.injEq .. ▸ (Except.ok.inj heq)
    have hx : x.tour.Perm (List.range n) := hin x (by simp)
    have hy : y.tour.Perm (List.range n) := hin y (by simp)
    rcases List.mem_cons.mp hx' with h1 | h1
    · subst h1
      exact oxChild_perm n x.tour y.tour (min i j) (max i j) hx hy
    rcases List.mem_cons.mp h1 with h2 | h2
    · subst h2
      exact oxChild_perm n y.tour x.tour (min i j) (max i j) hy hx
    · exact ih (fun z hz => hin z (by simp [hz])) rest' s3 hrec x' h2
  | case6 s x y rest r hgate e hrec ih =>
    intro hin out s' heq x' hx'
    have hgate' : ¬ (randFloat s).1 < CXR := hgate
    have hrec' : crossoverPhase (randFloat s).2 rest = .error e := hrec
    simp only [crossoverPhase] at heq
    rw [if_neg hgate', hrec'] at heq
    cases heq
  | case7 s x y rest r hgate rest' s3 hrec ih =>
    intro hin out s' heq x' hx'
    have hgate' : ¬ (randFloat s).1 < CXR := hgate
    have hrec' : crossoverPhase (randFloat s).2 rest = .ok (rest', s3) := hrec
    simp only [crossoverPhase] at heq
    rw [if_neg hgate', hrec'] at heq
    cases heq
    rcases List.mem_cons.mp hx' with h1 | h1
    · subst h1
      exact hin x' (by simp)
    rcases List.mem_cons.mp h1 with h2 | h2
    · subst h2
      exact hin x' (by simp)
    · exact ih (fun z hz => hin z (by simp [hz])) rest' s3 hrec x' h2

lemma mutateOne_perm {n : ℕ} {s s' : RS} {ind ind' : Individual}
    (h : ind.tour.Perm (List.range n)) (heq : mutateOne s ind = .ok (ind', s')) :
    ind'.tour.Perm (List.range n) := by
  unfold mutateOne at heq
  by_cases hg : (randFloat s).1 < MUT
  · rw [if_pos hg] at heq
    cases h2 : inversion_mutation indpb (randFloat s).2 ind with
    | error e =>
      rw [h2] at heq
      cases heq
    | ok v =>
      obtain ⟨i2, s2⟩ := v
      rw [h2] at heq
      cases heq
      have hp : i2.tour.Perm (List.range n) := inversion_mutation_perm h h2
      exact hp
  · rw [if_neg hg] at heq
    cases heq
    exact h

lemma mutationPhase_perm (n : ℕ) :
    ∀ (l : List Individual) (s : RS),
    (∀ x ∈ l, x.tour.Perm (List.range n)) →
    ∀ (out : List Individual) (s' : RS), mutationPhase s l = .ok (out, s') →
    ∀ x ∈ out, x.tour.Perm (List.range n) := by
  intro l
  induction l with
  | nil =>
    intro s hin out s' heq x hx
    simp only [mutationPhase] at heq
    cases heq
    simp at hx
  | cons ind rest ih =>
    intro s hin out s' heq x hx
    cases h1 : mutateOne s ind with
    | error e =>
      simp only [mutationPhase, h1] at heq
      cases heq
    | ok v =>
      obtain ⟨ind', s1⟩ := v
      cases h2 : mutationPhase s1 rest with
      | error e =>
        simp only [mutationPhase, h1, h2] at heq
        cases heq
      | ok w =>
        obtain ⟨rest', s2⟩ := w
        simp only [mutationPhase, h1, h2, Except.ok.injEq, Prod.mk.injEq] at heq
        obtain ⟨h3, h4⟩ := heq
        subst h3
        subst h4
        rcases List.mem_cons.mp hx with hz | hz
        · subst hz
          exact mutateOne_perm (hin ind (by simp)) h1
        · exact ih s1 (fun z hz2 => hin z (by simp [hz2])) rest' s2 h2 x hz

lemma evalPhase_perm (n : ℕ) (d : ℕ → ℕ → ℚ) (l : List Individual)
    (hin : ∀ x ∈ l, x.tour.Perm (List.range n)) :
    ∀ x ∈ evalPhase d n l, x.tour.Perm (List.range n) := by
  intro x hx
  obtain ⟨y, hy, hxy⟩ := List.mem_map.mp hx
  subst hxy
  by_cases hc : y.fit.isSome
  · rw [if_pos hc]
    exact hin y hy
  · rw [if_neg hc]
    exact hin y hy

/-- The per-generation invariant of C1: every population member and the
best-ever individual are permutations of `{0, …, n-1}`. -/
def PopInv (n : ℕ) (st : GAState) : Prop :=
  (∀ x ∈ st.pop, x.tour.Perm (List.range n)) ∧
    st.best.tour.Perm (List.range n)

lemma genStep_inv {d : ℕ → ℕ → ℚ} {n : ℕ} {st st' : GAState}
    (h : PopInv n st) (heq : genStep d n st = .ok st') : PopInv n st' := by
  have hsel : ∀ x ∈ (selTournament st.pop TRN st.rs st.pop.length).1,
      x.tour.Perm (List.range n) := by
    by_cases hp : st.pop = []
    · rw [hp]
      intro x hx
      simp [selTournament] at hx
    · intro x hx
      exact h.1 x (selTournament_mem st.pop hp TRN (by decide) _ _ x hx)
  cases hcx : crossoverPhase (selTournament st.pop TRN st.rs st.pop.length).2
      (selTournament st.pop TRN st.rs st.pop.length).1 with
  | error e =>
    simp only [genStep, hcx] at heq
    cases heq
  | ok co =>
    obtain ⟨co1, co2⟩ := co
    have hco : ∀ x ∈ co1, x.tour.Perm (List.range n) :=
      crossoverPhase_perm n _ _ hsel co1 co2 hcx
    cases hmu : mutationPhase co2 co1 with
    | error e =>
      simp only [genStep, hcx, hmu] at heq
      cases heq
    | ok mu =>
      obtain ⟨mu1, mu2⟩ := mu
      have hmus : ∀ x ∈ mu1, x.tour.Perm (List.range n) :=
        mutationPhase_perm n co1 co2 hco mu1 mu2 hmu
      simp only [genStep, hcx, hmu, Except.ok.injEq] at heq
      subst heq
      have hoff : ∀ x ∈ (evalPhase d n mu1).set 0 st.best,
          x.tour.Perm (List.range n) := by
        intro x hx
        rcases List.mem_or_eq_of_mem_set hx with h1 | h1
        · exact evalPhase_perm n d mu1 hmus x h1
        · subst h1
          exact h.2
      refine ⟨hoff, ?_⟩
      rcases updateBest_mem st.best ((evalPhase d n mu1).set 0 st.best)
          with h1 | h1
      · rw [h1]
        exact h.2
      · exact hoff _ h1

lemma evolveLoopK_inv {d : ℕ → ℕ → ℚ} {n : ℕ} :
    ∀ (g : ℕ) (st st' : GAState), PopInv n st →
    evolveLoopK d n g st = .ok st' → PopInv n st' := by
  intro g
  induction g with
  | zero =>
    intro st st' h heq
    cases heq
    exact h
  | succ g ih =>
    intro st st' h heq
    simp only [evolveLoopK] at heq
    cases hstep : genStep d n st with
    | error e =>
      rw [hstep] at heq
      cases heq
    | ok st1 =>
      rw [hstep] at heq
      exact ih st1 st' (genStep_inv h hstep) heq

lemma initPopulation_length (n : ℕ) :
    ∀ (k : ℕ) (s : RS), (initPopulation n s k).1.length = k := by
  intro k
  induction k with
  | zero =>
    intro s
    rfl
  | succ k ih =>
    intro s
    simp only [initPopulation, List.length_cons, ih]

lemma initStateK_inv {d : ℕ → ℕ → ℚ} {n k : ℕ} {s : RS} (hk : 1 ≤ k) :
    PopInv n (initStateK d n k s) := by
  simp only [initStateK]
  have hpop : ∀ x ∈ (initPopulation n s k).1.map
      (fun ind => (⟨ind.tour, some (evaluate d n ind.tour)⟩ : Individual)),
      x.tour.Perm (List.range n) := by
    intro x hx
    obtain ⟨y, hy, hxy⟩ := List.mem_map.mp hx
    subst hxy
    exact initPopulation_tours n k s y hy
  refine ⟨hpop, ?_⟩
  have hne : (initPopulation n s k).1.map
      (fun ind => (⟨ind.tour, some (evaluate d n ind.tour)⟩ : Individual)) ≠ [] := by
    intro hcon
    have := congrArg List.length hcon
    simp only [List.length_map, initPopulation_length, List.length_nil] at this
    omega
  have hhead : ((initPopulation n s k).1.map
      (fun ind => (⟨ind.tour, some (evaluate d n ind.tour)⟩ : Individual))).headD default
      ∈ (initPopulation n s k).1.map
        (fun ind => (⟨ind.tour, some (evaluate d n ind.tour)⟩ : Individual)) := by
    cases hcase : (initPopulation n s k).1.map
        (fun ind => (⟨ind.tour, some (evaluate d n ind.tour)⟩ : Individual)) with
    | nil => exact absurd hcase hne
    | cons z zs => simp
  rcases updateBest_mem (((initPopulation n s k).1.map
      (fun ind => (⟨ind.tour, some (evaluate d n ind.tour)⟩ : Individual))).headD default)
      ((initPopulation n s k).1.map
        (fun ind => (⟨ind.tour, some (evaluate d n ind.tour)⟩ : Individual)))
      with h1 | h1
  · rw [h1]
    exact hpop _ hhead
  · exact hpop _ h1

/-- A zero distance matrix, used as a concrete test input. -/
def dZero : ℕ → ℕ → ℚ := fun _ _ => 0

/-- A concrete oracle whose float stream is constantly 0 (so every
Bernoulli gate fires) and whose integer stream is constantly 0. -/
def sZero : RS := ⟨fun _ => 0, fun _ => 0, 0, 0⟩

/-- C1. Every individual of the initial population and of every population
produced by the evolve loop — and the best-ever individual — is a
permutation of `{0, …, n-1}` (stated for every population size, generation
count and oracle, which covers `run`'s `POP` and `GEN`); and inversion
mutation applied to a valid permutation yields a valid permutation. -/
theorem permutation_invariant (d : ℕ → ℕ → ℚ) (n k gens : ℕ) (s : RS)
    (hk : 1 ≤ k) :
    (match evolveLoopK d n gens (initStateK d n k s) with
     | .ok st' => (∀ ind ∈ st'.pop, ind.tour.Perm (List.range n)) ∧
         st'.best.tour.Perm (List.range n)
     | .error _ => True) ∧
    (∀ (p : ℚ) (s2 s3 : RS) (ind ind' : Individual),
      ind.tour.Perm (List.range n) →
      inversion_mutation p s2 ind = .ok (ind', s3) →
      ind'.tour.Perm (List.range n)) := by
  constructor
  · cases hev : evolveLoopK d n gens (initStateK d n k s) with
    | error e => trivial
    | ok st' => exact evolveLoopK_inv gens _ st' (initStateK_inv hk) hev
  · intro p s2 s3 ind ind' hperm heq
    exact inversion_mutation_perm hperm heq

/-- Witness for `permutation_invariant` at a concrete small instance. -/
theorem permutation_invariant_witness :
    (match evolveLoopK dZero 2 1 (initStateK dZero 2 2 sZero) with
     | .ok st' => (∀ ind ∈ st'.pop, ind.tour.Perm (List.range 2)) ∧
         st'.best.tour.Perm (List.range 2)
     | .error _ => True) ∧
    (∀ (p : ℚ) (s2 s3 : RS) (ind ind' : Individual),
      ind.tour.Perm (List.range 2) →
      inversion_mutation p s2 ind = .ok (ind', s3) →
      ind'.tour.Perm (List.range 2)) :=
  permutation_invariant dZero 2 2 1 sZero (by decide)

/-- C2. `run` is deterministic: two executions with the same seeded random
stream, the same distance matrix, the same city count and the same (fixed)
configuration return identical best tours, best distances and generation
traces. -/
theorem run_deterministic (d d' : ℕ → ℕ → ℚ) (n n' : ℕ) (s s' : RS)
    (hd : d = d') (hn : n = n') (hs : s = s') :
    run d n s = run d' n' s' := by
  subst hd
  subst hn
  subst hs
  rfl

/-- Witness for `run_deterministic` at a concrete instance. -/
theorem run_deterministic_witness :
    run dZero 1 sZero = run dZero 1 sZero :=
  run_deterministic dZero dZero 1 1 sZero sZero rfl rfl rfl

lemma genStep_trace {d : ℕ → ℕ → ℚ} {n : ℕ} {st st' : GAState}
    (heq : genStep d n st = .ok st') :
    st'.trace = st.trace ++ [st'.best.val] ∧ st'.best.val ≤ st.best.val := by
  cases hcx : crossoverPhase (selTournament st.pop TRN st.rs st.pop.length).2
      (selTournament st.pop TRN st.rs st.pop.length).1 with
  | error e =>
    simp only [genStep, hcx] at heq
    cases heq
  | ok co =>
    obtain ⟨co1, co2⟩ := co
    cases hmu : mutationPhase co2 co1 with
    | error e =>
      simp only [genStep, hcx, hmu] at heq
      cases heq
    | ok mu =>
      obtain ⟨mu1, mu2⟩ := mu
      simp only [genStep, hcx, hmu, Except.ok.injEq] at heq
      subst heq
      exact ⟨rfl, updateBest_le _ _⟩

/-- The trace bookkeeping invariant: the recorded trace is non-increasing
and bounded below by the current best-ever fitness. -/
def TrInv (st : GAState) : Prop :=
  List.Chain' (fun a b => b ≤ a) st.trace ∧ ∀ x ∈ st.trace, st.best.val ≤ x

lemma genStep_trInv {d : ℕ → ℕ → ℚ} {n : ℕ} {st st' : GAState}
    (heq : genStep d n st = .ok st') (h : TrInv st) :
    TrInv st' ∧ st'.trace.length = st.trace.length + 1 := by
  obtain ⟨htr, hle⟩ := genStep_trace heq
  obtain ⟨hchain, hbound⟩ := h
  refine ⟨⟨?_, ?_⟩, ?_⟩
  · rw [htr]
    rw [List.chain'_append]
    refine ⟨hchain, List.chain'_singleton _, ?_⟩
    intro x hx y hy
    simp only [List.head?_cons, Option.mem_def, Option.some.injEq] at hy
    subst hy
    exact le_trans hle (hbound x (List.mem_of_mem_getLast? hx))
  · intro x hx
    rw [htr] at hx
    rcases List.mem_append.mp hx with h1 | h1
    · exact le_trans hle (hbound x h1)
    · rcases List.mem_singleton.mp h1 with rfl
      exact le_refl _
  · rw [htr]
    simp

lemma evolveLoopK_trace {d : ℕ → ℕ → ℚ} {n : ℕ} :
    ∀ (g : ℕ) (st st' : GAState), evolveLoopK d n g st = .ok st' →
    TrInv st → TrInv st' ∧ st'.trace.length = st.trace.length + g := by
  intro g
  induction g with
  | zero =>
    intro st st' heq h
    cases heq
    exact ⟨h, rfl⟩
  | succ g ih =>
    intro st st' heq h
    simp only [evolveLoopK] at heq
    cases hstep : genStep d n st with
    | error e =>
      rw [hstep] at heq
      cases heq
    | ok st1 =>
      rw [hstep] at heq
      obtain ⟨h1, hlen1⟩ := genStep_trInv hstep h
      obtain ⟨h2, hlen2⟩ := ih st1 st' heq h1
      exact ⟨h2, by omega⟩

set_option maxRecDepth 4000 in
/-- C3. The generation trace returned by `run` is an ordered sequence of
exactly `GEN` scalars and is non-increasing (`trace[k+1] ≤ trace[k]` for
all k), a consequence of the unconditional overwrite of offspring slot 0
with the best-ever individual before the best-ever update and the trace
append. -/
theorem trace_len_monotone (d : ℕ → ℕ → ℚ) (n : ℕ) (s : RS) :
    match run d n s with
    | .ok res => res.2.2.length = GEN ∧
        List.Chain' (fun a b => b ≤ a) res.2.2
    | .error _ => True := by
  cases hev : evolveLoopK d n GEN (initStateK d n POP s) with
  | error e =>
    have hrun : run d n s = .error e := by
      unfold run
      rw [hev]
    rw [hrun]
    trivial
  | ok st =>
    have hrun : run d n s = .ok (st.best.tour, st.best.val, st.trace) := by
      unfold run
      rw [hev]
    rw [hrun]
    have hinit : TrInv (initStateK d n POP s) := by
      constructor
      · simp [initStateK]
      · intro x hx
        simp [initStateK] at hx
    obtain ⟨⟨hchain, _⟩, hlen⟩ := evolveLoopK_trace GEN _ st hev hinit
    refine ⟨?_, hchain⟩
    have hz : (initStateK d n POP s).trace.length = 0 := by
      simp [initStateK]
    show st.trace.length = GEN
    omega

/-- First position drawn by the model of `random.sample(range n, 2)`. -/
def sampleFst (s : RS) (n : ℕ) : ℕ := s.ints s.ii % n

/-- Second position drawn by the model of `random.sample(range n, 2)`. -/
def sampleSnd (s : RS) (n : ℕ) : ℕ :=
  if sampleFst s n ≤ s.ints (s.ii + 1) % (n - 1)
  then s.ints (s.ii + 1) % (n - 1) + 1
  else s.ints (s.ii + 1) % (n - 1)

lemma sampleFst_lt (s : RS) {n : ℕ} (hn : 0 < n) : sampleFst s n < n :=
  Nat.mod_lt _ hn

lemma sampleSnd_lt (s : RS) {n : ℕ} (hn : 2 ≤ n) : sampleSnd s n < n := by
  unfold sampleSnd
  have h := Nat.mod_lt (s.ints (s.ii + 1)) (show 0 < n - 1 by omega)
  split_ifs <;> omega

lemma sample_ne (s : RS) {n : ℕ} (hn : 2 ≤ n) :
    sampleFst s n ≠ sampleSnd s n := by
  unfold sampleSnd
  split_ifs with hc <;> omega

/-- C9. In the offspring mutation step, the tour changes only when the
outer Bernoulli gate (probability `MUT`) and the inner gate of
`inversion_mutation` (probability `indpb`) both succeed; on firing, two
distinct positions `a < b` are drawn from `[0, n)`, the slice
`individual[a:b]` is reversed, and the fitness is invalidated (the code
also invalidates it when only the outer gate fires). -/
theorem mutation_two_gates (s : RS) (ind : Individual) (n : ℕ)
    (hlen : ind.tour.length = n) (hn : 2 ≤ n) :
    (¬ s.floats s.fi < MUT → ∃ s', mutateOne s ind = .ok (ind, s')) ∧
    (s.floats s.fi < MUT → ¬ s.floats (s.fi + 1) < indpb →
      ∃ s', mutateOne s ind = .ok (⟨ind.tour, none⟩, s')) ∧
    (s.floats s.fi < MUT → s.floats (s.fi + 1) < indpb →
      ∃ a b s', a < b ∧ b < n ∧
        mutateOne s ind = .ok (⟨ind.tour.take a ++
          ((ind.tour.drop a).take (b - a)).reverse ++ ind.tour.drop b,
          none⟩, s')) := by
  refine ⟨fun hg => ?_, fun hg hin => ?_, fun hg hin => ?_⟩
  · refine ⟨{ s with fi := s.fi + 1 }, ?_⟩
    dsimp only [mutateOne, randFloat]
    rw [if_neg hg]
  · refine ⟨{ s with fi := s.fi + 1 + 1 }, ?_⟩
    dsimp only [mutateOne, inversion_mutation, randFloat]
    rw [if_pos hg, if_neg hin]
  · have hne := sample_ne s (n := n) hn
    refine ⟨min (sampleFst s n) (sampleSnd s n),
      max (sampleFst s n) (sampleSnd s n),
      { s with fi := s.fi + 1 + 1, ii := s.ii + 1 + 1 },
      min_lt_max.mpr hne,
      max_lt (sampleFst_lt s (by omega)) (sampleSnd_lt s hn), ?_⟩
    dsimp only [mutateOne, inversion_mutation, sampleTwo, randFloat, randInt]
    rw [hlen, if_pos hg, if_pos hin, if_neg (show ¬ n < 2 by omega)]
    rfl

/-- Witness for `mutation_two_gates` at a concrete instance. -/
theorem mutation_two_gates_witness :
    (¬ sZero.floats sZero.fi < MUT →
      ∃ s', mutateOne sZero ⟨[0, 1, 2], some 5⟩ = .ok (⟨[0, 1, 2], some 5⟩, s')) ∧
    (sZero.floats sZero.fi < MUT → ¬ sZero.floats (sZero.fi + 1) < indpb →
      ∃ s', mutateOne sZero ⟨[0, 1, 2], some 5⟩ = .ok (⟨[0, 1, 2], none⟩, s')) ∧
    (sZero.floats sZero.fi < MUT → sZero.floats (sZero.fi + 1) < indpb →
      ∃ a b s', a < b ∧ b < 3 ∧
        mutateOne sZero ⟨[0, 1, 2], some 5⟩ = .ok (⟨[0, 1, 2].take a ++
          (([0, 1, 2].drop a).take (b - a)).reverse ++ [0, 1, 2].drop b,
          none⟩, s')) :=
  mutation_two_gates sZero ⟨[0, 1, 2], some 5⟩ 3 rfl (by decide)

set_option maxRecDepth 40000 in
unseal Rat.add in
/-- C7 counterexample. With `n = 1` and an oracle whose first crossover
gate fires (float stream constantly 0, as any stream with first float
below `CXR`), `run` raises the sampling error from
`random.sample(range(1), 2)` inside generation 1 instead of returning tour
`[0]` with a constant trace: the operators do not short-circuit for
`n < 2`. -/
theorem degenerate_run_cx :
    run dZero 1 sZero = Except.error GAErr.sampleTooLarge := rfl

/-- C7 amended. For `n < 2` the stochastic operators fail rather than
short-circuit: `inversion_mutation` on a tour shorter than 2 raises the
sampling error whenever its inner gate fires, and the cut-point sampling
shared with crossover raises it whenever `n < 2`; consequently a run with
`n = 1` fails as soon as any crossover or mutation event fires. -/
theorem degenerate_operators_fail (s : RS) (ind : Individual) (p : ℚ)
    (hlen : ind.tour.length < 2) (hfire : s.floats s.fi < p) :
    inversion_mutation p s ind = .error .sampleTooLarge ∧
    ∀ (s2 : RS) (n : ℕ), n < 2 → sampleTwo s2 n = .error .sampleTooLarge := by
  constructor
  · dsimp only [inversion_mutation, randFloat]
    rw [if_pos hfire]
    dsimp only [sampleTwo]
    rw [if_pos hlen]
  · intro s2 n hn2
    dsimp only [sampleTwo]
    rw [if_pos hn2]

/-- Witness for `degenerate_operators_fail` at a concrete instance. -/
theorem degenerate_operators_fail_witness :
    inversion_mutation indpb sZero ⟨[0], some 0⟩ = .error .sampleTooLarge ∧
    ∀ (s2 : RS) (n : ℕ), n < 2 → sampleTwo s2 n = .error .sampleTooLarge :=
  degenerate_operators_fail sZero ⟨[0], some 0⟩ indpb (by decide) (by decide)

set_option maxRecDepth 40000 in
unseal Rat.add in
/-- C8 counterexample. For the invalid input `n = 0` the engine does not
fail fast with a validation error: initialization succeeds and builds the
full population of `POP` individuals, the generational loop is entered,
and the failure that eventually surfaces is the sampling `ValueError`
raised inside generation 1's crossover — the code contains no
`InvalidInputSize` or `ConfigurationError` check at all. -/
theorem no_validation_cx :
    (initStateK dZero 0 POP sZero).pop.length = POP ∧
      run dZero 0 sZero = Except.error GAErr.sampleTooLarge := ⟨rfl, rfl⟩

/-- C8 amended. The engine performs no input or configuration validation:
for every city count `n` (valid or not) and every oracle, initialization
succeeds, producing a fully evaluated population of exactly `POP`
individuals, and the only failure `run` can report is the sampling error
raised inside the generational loop's stochastic operators. -/
theorem engine_no_validation (d : ℕ → ℕ → ℚ) (n : ℕ) (s : RS) :
    (initStateK d n POP s).pop.length = POP ∧
    (∀ ind ∈ (initStateK d n POP s).pop, ind.fit.isSome) ∧
    (∀ e, run d n s = .error e → e = .sampleTooLarge) := by
  refine ⟨?_, ?_, ?_⟩
  · simp only [initStateK, List.length_map]
    exact initPopulation_length n POP s
  · intro ind hind
    simp only [initStateK] at hind
    obtain ⟨y, _, hxy⟩ := List.mem_map.mp hind
    subst hxy
    rfl
  · intro e _
    cases e
    rfl

set_option maxRecDepth 40000 in
unseal Rat.add in
/-- Witness for `engine_no_validation`: its implication discharged at the
concrete invalid input `n = 0` with the all-zero oracle. -/
theorem engine_no_validation_witness :
    (initStateK dZero 0 POP sZero).pop.length = POP ∧
      GAErr.sampleTooLarge = GAErr.sampleTooLarge :=
  ⟨(engine_no_validation dZero 0 sZero).1,
    (engine_no_validation dZero 0 sZero).2.2 GAErr.sampleTooLarge rfl⟩

end TSP
